import Mathlib

/-!
Verification development for the hybrid chunking and similarity-ranked
retrieval core of an academic-paper summarizer.

The Python sources are shallowly embedded:
* strings are modelled as `List Char` (`Str`); Python `str.strip`,
  `str.split`, `" ".join` are reimplemented faithfully for the ASCII
  whitespace classes the code manipulates;
* the external tiktoken encoder behind `ChunkingService.count_tokens` is
  modelled as an opaque parameter `tc : Str → Nat` (the spec only requires a
  deterministic non-negative count with `tc "" = 0`); concrete instantiations
  used in witnesses and counterexamples are word count and character count,
  both of which satisfy that contract;
* the section-header regex of `_detect_sections` (13 alternatives, compiled
  with `re.MULTILINE | re.IGNORECASE`) is implemented as an explicit
  leftmost-match scanner with Python `re` alternation/backtracking semantics;
* the SQL similarity query of `RetrievalService._vector_search` is embedded
  relationally: `ORDER BY similarity DESC LIMIT k` determines the output only
  up to reordering of equal scores, so the result is a predicate on output
  lists rather than a function;
* the Streamlit Q&A page's cache gate is embedded as explicit state passing
  over the list of `query_cache` rows, with SQLAlchemy's
  `scalar_one_or_none` raising behaviour mapped to `Except`.
-/

/-- Strings of the embedded Python code are lists of characters. -/
abbrev Str : Type := List Char

/-- Conversion from Lean string literals to the embedded string type. -/
def ofStr (s : String) : Str := s.toList

/-- Python whitespace for `str.strip` / `str.split` / regex `\s`
(ASCII fragment: space, tab, newline, carriage return, vertical tab,
form feed). -/
def isPyWs (c : Char) : Bool :=
  c = ' ' || c = '\t' || c = '\n' || c = '\r' || c = '\x0b' || c = '\x0c'

/-- Left strip: Python `str.lstrip()` restricted to ASCII whitespace. -/
def lstrip (s : Str) : Str := s.dropWhile isPyWs

/-- Right strip: Python `str.rstrip()` restricted to ASCII whitespace. -/
def rstrip (s : Str) : Str := ((s.reverse).dropWhile isPyWs).reverse

/-- Python `str.strip()` restricted to ASCII whitespace. -/
def pyStrip (s : Str) : Str := rstrip (lstrip s)

/-- Accumulator-style worker for Python `str.split()` (split on whitespace
runs, dropping empty pieces).  `acc` holds the current word reversed. -/
def splitWsAux : Str → Str → List Str
  | [], acc => if acc = [] then [] else [acc.reverse]
  | c :: rest, acc =>
      if isPyWs c then
        if acc = [] then splitWsAux rest [] else acc.reverse :: splitWsAux rest []
      else splitWsAux rest (c :: acc)

/-- Python `str.split()` with no arguments: whitespace-delimited words. -/
def pySplitWs (s : Str) : List Str := splitWsAux s []

/-- Python `" ".join(parts)`. -/
def joinSp : List Str → Str
  | [] => []
  | [x] => x
  | x :: y :: rest => x ++ ' ' :: joinSp (y :: rest)

/-- Word-count token model of the external cl100k encoder: number of
whitespace-delimited words.  Deterministic, non-negative, and `0` on the
empty string, as §4.2 of the spec requires of the Token Counter. -/
def wordCount (s : Str) : Nat := (pySplitWs s).length

/-- Character-count token model of the external cl100k encoder: like the real
byte-pair encoder it is sensitive to leading/trailing whitespace.
Deterministic, non-negative, `0` on the empty string. -/
def charCount (s : Str) : Nat := s.length

theorem dropWhile_idem (p : Char → Bool) : ∀ s : Str,
    (s.dropWhile p).dropWhile p = s.dropWhile p := by
  intro s
  induction s with
  | nil => rfl
  | cons c t ih =>
      by_cases h : p c
      · simp [List.dropWhile, h, ih]
      · simp [List.dropWhile, h]

theorem length_dropWhile_le (p : Char → Bool) (s : Str) :
    (s.dropWhile p).length ≤ s.length := by
  induction s with
  | nil => simp [List.dropWhile]
  | cons c t ih =>
      by_cases h : p c
      · simp [List.dropWhile, h]; omega
      · simp [List.dropWhile, h]

theorem lstrip_idem (s : Str) : lstrip (lstrip s) = lstrip s :=
  dropWhile_idem isPyWs s

theorem rstrip_idem (s : Str) : rstrip (rstrip s) = rstrip s := by
  simp [rstrip, dropWhile_idem]

theorem lstrip_head_not_ws (s : Str) :
    ∀ c, (lstrip s).head? = some c → isPyWs c = false := by
  induction s with
  | nil => intro c h; simp [lstrip, List.dropWhile] at h
  | cons a t ih =>
      intro c h
      by_cases ha : isPyWs a
      · exact ih c (by simpa [lstrip, List.dropWhile, ha] using h)
      · simp [lstrip, List.dropWhile, ha] at h
        simp [← h, ha]

theorem lstrip_eq_self_of_head (s : Str)
    (h : ∀ c, s.head? = some c → isPyWs c = false) : lstrip s = s := by
  cases s with
  | nil => rfl
  | cons a t => simp [lstrip, List.dropWhile, h a rfl]

theorem lstrip_suffix (s : Str) : lstrip s <:+ s := by
  induction s with
  | nil => exact List.suffix_refl _
  | cons a t ih =>
      by_cases ha : isPyWs a
      · simpa [lstrip, List.dropWhile, ha] using ih.trans (List.suffix_cons a t)
      · simp [lstrip, List.dropWhile, ha]

theorem rstrip_eq_reverse_lstrip (s : Str) :
    rstrip s = (lstrip s.reverse).reverse := rfl

theorem lstrip_of_lstrip_fixed_prefix {y w : Str}
    (hy : lstrip y = y) (hw : w <+: y) : lstrip w = w := by
  cases w with
  | nil => rfl
  | cons a t =>
      apply lstrip_eq_self_of_head
      intro c hc
      simp [List.head?] at hc
      obtain ⟨u, hu⟩ := hw
      have hhead : y.head? = some a := by rw [← hu]; rfl
      have := lstrip_head_not_ws y
      rw [hy] at this
      rw [← hc]
      exact this a hhead

theorem pyStrip_idem (s : Str) : pyStrip (pyStrip s) = pyStrip s := by
  have h1 : lstrip (rstrip (lstrip s)) = rstrip (lstrip s) := by
    have hfix : lstrip (lstrip s) = lstrip s := lstrip_idem s
    have hpre : rstrip (lstrip s) <+: lstrip s := by
      rw [rstrip_eq_reverse_lstrip]
      have : lstrip (lstrip s).reverse <:+ (lstrip s).reverse := lstrip_suffix _
      have h2 := List.reverse_prefix.mpr (by simpa using this)
      simpa using h2
    exact lstrip_of_lstrip_fixed_prefix hfix hpre
  show rstrip (lstrip (rstrip (lstrip s))) = rstrip (lstrip s)
  rw [h1, rstrip_idem]

theorem pyStrip_nil : pyStrip [] = [] := rfl

theorem lstrip_fixed_head {s : Str} (hfix : lstrip s = s) :
    ∀ c, s.head? = some c → isPyWs c = false := by
  have := lstrip_head_not_ws s
  rw [hfix] at this
  exact this

theorem rstrip_length_le (s : Str) : (rstrip s).length ≤ s.length := by
  simpa [rstrip] using length_dropWhile_le isPyWs s.reverse

theorem lstrip_eq_self_of_pyStrip {s : Str} (hfix : pyStrip s = s) :
    lstrip s = s := by
  have h1 : (pyStrip s).length ≤ (lstrip s).length := rstrip_length_le (lstrip s)
  have h2 : (lstrip s).length ≤ s.length := length_dropWhile_le isPyWs s
  have hl : (lstrip s).length = s.length := by rw [hfix] at h1; omega
  exact (lstrip_suffix s).eq_of_length hl

theorem rstrip_eq_self_of_pyStrip {s : Str} (hfix : pyStrip s = s) :
    rstrip s = s := by
  have h1 : lstrip s = s := lstrip_eq_self_of_pyStrip hfix
  have : pyStrip s = rstrip s := by unfold pyStrip; rw [h1]
  rw [← this, hfix]

theorem strip_fixed_head {s : Str} (hfix : pyStrip s = s) :
    ∀ c, s.head? = some c → isPyWs c = false :=
  lstrip_fixed_head (lstrip_eq_self_of_pyStrip hfix)

theorem strip_fixed_last {s : Str} (hfix : pyStrip s = s) :
    ∀ c, s.getLast? = some c → isPyWs c = false := by
  intro c hc
  have hr : rstrip s = s := rstrip_eq_self_of_pyStrip hfix
  have hrev : lstrip s.reverse = s.reverse := by
    have : (lstrip s.reverse).reverse = s := hr
    calc lstrip s.reverse = (lstrip s.reverse).reverse.reverse := by
          rw [List.reverse_reverse]
      _ = s.reverse := by rw [this]
  exact lstrip_fixed_head hrev c (by rw [List.head?_reverse]; exact hc)

theorem strip_fixed_of_ends {s : Str}
    (hh : ∀ c, s.head? = some c → isPyWs c = false)
    (hl : ∀ c, s.getLast? = some c → isPyWs c = false) : pyStrip s = s := by
  have h1 : lstrip s = s := lstrip_eq_self_of_head s hh
  have h2 : lstrip s.reverse = s.reverse := by
    apply lstrip_eq_self_of_head
    intro c hc
    exact hl c (by rwa [List.head?_reverse] at hc)
  show rstrip (lstrip s) = s
  rw [h1]
  show (lstrip s.reverse).reverse = s
  rw [h2, List.reverse_reverse]

/-- Good chunk-buffer part: a non-empty string that is a fixed point of
`pyStrip` (sentences are emitted stripped, words contain no whitespace). -/
def GoodPart (p : Str) : Prop := p ≠ [] ∧ pyStrip p = p

theorem goodPart_of_word {w : Str} (hne : w ≠ [])
    (hw : ∀ c ∈ w, isPyWs c = false) : GoodPart w := by
  refine ⟨hne, strip_fixed_of_ends ?_ ?_⟩
  · intro c hc
    exact hw c (by cases w with
      | nil => simp at hc
      | cons a t => simp [List.head?] at hc; simp [hc])
  · intro c hc
    exact hw c (List.mem_of_mem_getLast? (Option.mem_def.mpr hc))

theorem splitWsAux_append_space :
    ∀ (a : Str) (acc : Str) (b : Str),
      splitWsAux (a ++ ' ' :: b) acc = splitWsAux a acc ++ splitWsAux b [] := by
  intro a
  induction a with
  | nil =>
      intro acc b
      by_cases h : acc = []
      · simp [splitWsAux, isPyWs, h]
      · simp [splitWsAux, isPyWs, h]
  | cons c t ih =>
      intro acc b
      by_cases hc : isPyWs c
      · by_cases h : acc = []
        · simp [splitWsAux, hc, h, ih]
        · simp [splitWsAux, hc, h, ih]
      · simp [splitWsAux, hc, ih]

theorem pySplitWs_append_space (a b : Str) :
    pySplitWs (a ++ ' ' :: b) = pySplitWs a ++ pySplitWs b :=
  splitWsAux_append_space a [] b

theorem splitWsAux_mem :
    ∀ (s : Str) (acc : Str) (w : Str),
      (∀ c ∈ acc, isPyWs c = false) → w ∈ splitWsAux s acc →
      w ≠ [] ∧ ∀ c ∈ w, isPyWs c = false := by
  intro s
  induction s with
  | nil =>
      intro acc w hacc hw
      by_cases h : acc = []
      · simp [splitWsAux, h] at hw
      · simp [splitWsAux, h] at hw
        subst hw
        refine ⟨by simpa using h, ?_⟩
        intro c hc
        exact hacc c (by simpa using hc)
  | cons c t ih =>
      intro acc w hacc hw
      by_cases hc : isPyWs c
      · by_cases h : acc = []
        · exact ih [] w (by simp) (by simpa [splitWsAux, hc, h] using hw)
        · simp [splitWsAux, hc, h] at hw
          rcases hw with hw | hw
          · subst hw
            refine ⟨by simpa using h, ?_⟩
            intro d hd
            exact hacc d (by simpa using hd)
          · exact ih [] w (by simp) hw
      · refine ih (c :: acc) w ?_ (by simpa [splitWsAux, hc] using hw)
        intro d hd
        rcases List.mem_cons.mp hd with hd | hd
        · subst hd; simpa using hc
        · exact hacc d hd

theorem pySplitWs_mem {s w : Str} (hw : w ∈ pySplitWs s) :
    w ≠ [] ∧ ∀ c ∈ w, isPyWs c = false :=
  splitWsAux_mem s [] w (by simp) hw

theorem splitWsAux_all_nonws :
    ∀ (s : Str) (acc : Str), (∀ c ∈ s, isPyWs c = false) →
      splitWsAux s acc =
        if acc.reverse ++ s = [] then [] else [acc.reverse ++ s] := by
  intro s
  induction s with
  | nil =>
      intro acc _
      by_cases h : acc = []
      · simp [splitWsAux, h]
      · simp [splitWsAux, h]
  | cons c t ih =>
      intro acc hs
      have hc : isPyWs c = false := hs c (by simp)
      rw [splitWsAux, if_neg (by simp [hc])]
      rw [ih (c :: acc) (fun d hd => hs d (by simp [hd]))]
      simp

theorem pySplitWs_single {w : Str} (hne : w ≠ [])
    (hw : ∀ c ∈ w, isPyWs c = false) : pySplitWs w = [w] := by
  unfold pySplitWs
  rw [splitWsAux_all_nonws w [] hw]
  simp [hne]

theorem joinSp_cons (x : Str) {xs : List Str} (h : xs ≠ []) :
    joinSp (x :: xs) = x ++ ' ' :: joinSp xs := by
  cases xs with
  | nil => exact absurd rfl h
  | cons y rest => rfl

theorem joinSp_append_single (xs : List Str) (y : Str) :
    joinSp (xs ++ [y]) = if xs = [] then y else joinSp xs ++ ' ' :: y := by
  induction xs with
  | nil => simp [joinSp]
  | cons x rest ih =>
      rw [List.cons_append, joinSp_cons x (by simp), ih]
      by_cases h : rest = []
      · simp [h, joinSp]
      · simp [h, joinSp_cons x h]

theorem pySplitWs_joinSp (parts : List Str) :
    pySplitWs (joinSp parts) = (parts.map pySplitWs).flatten := by
  induction parts with
  | nil => simp [joinSp, pySplitWs, splitWsAux]
  | cons x rest ih =>
      cases rest with
      | nil => simp [joinSp]
      | cons y rr =>
          rw [joinSp_cons x (by simp), pySplitWs_append_space, ih]
          simp

theorem wordCount_append_space (a b : Str) :
    wordCount (a ++ ' ' :: b) = wordCount a + wordCount b := by
  simp [wordCount, pySplitWs_append_space]

theorem wordCount_nil : wordCount [] = 0 := rfl

theorem tc_joinSp_cons (tc : Str → Nat)
    (hJoin : ∀ a b, tc (a ++ ' ' :: b) = tc a + tc b) (hNil : tc [] = 0)
    (x : Str) (xs : List Str) :
    tc (joinSp (x :: xs)) = tc x + tc (joinSp xs) := by
  cases xs with
  | nil => simp [joinSp, hNil]
  | cons y rest => rw [joinSp_cons x (by simp), hJoin]

theorem tc_joinSp_append (tc : Str → Nat)
    (hJoin : ∀ a b, tc (a ++ ' ' :: b) = tc a + tc b) (hNil : tc [] = 0)
    (xs : List Str) (y : Str) :
    tc (joinSp (xs ++ [y])) = tc (joinSp xs) + tc y := by
  rw [joinSp_append_single]
  by_cases h : xs = []
  · simp [h, joinSp, hNil]
  · rw [if_neg h, hJoin]

theorem joinSp_ne_nil {parts : List Str} (hne : parts ≠ [])
    (hp : ∀ p ∈ parts, p ≠ []) : joinSp parts ≠ [] := by
  cases parts with
  | nil => exact absurd rfl hne
  | cons x rest =>
      cases rest with
      | nil => simpa [joinSp] using hp x (by simp)
      | cons y rr =>
          rw [joinSp_cons x (by simp)]
          have := hp x (by simp)
          cases x with
          | nil => exact absurd rfl this
          | cons a t => simp

theorem good_join : ∀ (parts : List Str), (∀ p ∈ parts, GoodPart p) →
    pyStrip (joinSp parts) = joinSp parts := by
  intro parts
  induction parts with
  | nil => simp [joinSp, pyStrip_nil]
  | cons x rest ih =>
      intro hgood
      cases rest with
      | nil => exact (hgood x (by simp)).2
      | cons y rr =>
          have hx : GoodPart x := hgood x (by simp)
          have hrest : ∀ p ∈ y :: rr, GoodPart p := fun p hp =>
            hgood p (by simp [hp])
          have hJ : pyStrip (joinSp (y :: rr)) = joinSp (y :: rr) := ih hrest
          have hJne : joinSp (y :: rr) ≠ [] :=
            joinSp_ne_nil (by simp) (fun p hp => (hrest p hp).1)
          rw [joinSp_cons x (by simp)]
          apply strip_fixed_of_ends
          · intro c hc
            rw [List.head?_append_of_ne_nil _ hx.1] at hc
            exact strip_fixed_head hx.2 c hc
          · intro c hc
            rw [List.getLast?_append_of_ne_nil _ (by simp)] at hc
            have hgl : (' ' :: joinSp (y :: rr)).getLast? =
                (joinSp (y :: rr)).getLast? := by
              cases hJe : joinSp (y :: rr) with
              | nil => exact absurd hJe hJne
              | cons a t => simp
            rw [hgl] at hc
            exact strip_fixed_last hJ c hc

/-- Sentence-ending punctuation, the lookbehind `[.!?]` of
`_split_sentences`. -/
def isSentEnd (c : Char) : Bool := c = '.' || c = '!' || c = '?'

/-- ASCII uppercase, the lookahead `[A-Z]` of `_split_sentences` (that regex
is compiled without IGNORECASE). -/
def isUpperA (c : Char) : Bool := 'A' ≤ c && c ≤ 'Z'

/-- Worker for `re.split` over `(?<=[.!?])\s+(?=[A-Z])`: a separator is a
maximal whitespace run that starts right after sentence punctuation and is
followed by an uppercase letter (the greedy `\s+` only matches with the full
run, since shorter runs are followed by whitespace, not `[A-Z]`).  `pp` says
whether the previous character was sentence punctuation, `acc` is the piece
being accumulated, and fuel bounds the number of steps (each step consumes at
least one character, so `length + 1` fuel never runs out). -/
def rawSplitGo : Nat → Str → Bool → Str → List Str
  | 0, rem, _, acc => [acc ++ rem]
  | _ + 1, [], _, acc => [acc]
  | fuel + 1, c :: rest, pp, acc =>
      if pp && isPyWs c then
        let after := (c :: rest).dropWhile isPyWs
        match after with
        | a :: _ =>
            if isUpperA a then acc :: rawSplitGo fuel after false []
            else rawSplitGo fuel rest (isSentEnd c) (acc ++ [c])
        | [] => rawSplitGo fuel rest (isSentEnd c) (acc ++ [c])
      else rawSplitGo fuel rest (isSentEnd c) (acc ++ [c])

/-- `re.split(r"(?<=[.!?])\s+(?=[A-Z])", text)` as used by
`_split_sentences`. -/
def rawSplit (s : Str) : List Str := rawSplitGo (s.length + 1) s false []

/-- `ChunkingService._split_sentences`: regex split, then strip each piece
and drop empty pieces. -/
def splitSentences (s : Str) : List Str :=
  ((rawSplit s).map pyStrip).filter (fun p => p ≠ [])

theorem splitSentences_good {s p : Str} (hp : p ∈ splitSentences s) :
    GoodPart p := by
  unfold splitSentences at hp
  rw [List.mem_filter] at hp
  obtain ⟨hmem, hne⟩ := hp
  rw [List.mem_map] at hmem
  obtain ⟨r, _, hr⟩ := hmem
  refine ⟨by simpa using hne, ?_⟩
  rw [← hr]
  exact pyStrip_idem r

/-- Case-insensitive ASCII character comparison (`re.IGNORECASE` model). -/
def ciEq (a b : Char) : Bool := a.toLower == b.toLower

/-- Match a literal case-insensitively; returns consumed length and the rest
of the input. -/
def litCI : Str → Str → Option (Nat × Str)
  | [], rest => some (0, rest)
  | _ :: _, [] => none
  | l :: ls, c :: cs =>
      if ciEq l c then (litCI ls cs).map (fun kr => (kr.1 + 1, kr.2)) else none

/-- Match `\s*$` under MULTILINE with Python's greedy-then-backtrack
semantics: consume the longest whitespace run after which the position is
end-of-string or immediately before a newline. -/
def wsDollar (suffix : Str) : Option (Nat × Str) :=
  let run := suffix.takeWhile isPyWs
  let rest := suffix.drop run.length
  if rest = [] then some (run.length, [])
  else
    match run.reverse.findIdx? (fun c => c = '\n') with
    | some j => some (run.length - 1 - j, suffix.drop (run.length - 1 - j))
    | none => none

/-- Empty pattern tail (for the alternative that ends right after its
literal). -/
def emptyTail (suffix : Str) : Option (Nat × Str) := some (0, suffix)

/-- Sequencing of sub-matchers. -/
def mseq (m1 m2 : Str → Option (Nat × Str)) : Str → Option (Nat × Str) :=
  fun s =>
    match m1 s with
    | none => none
    | some (k, r) =>
        match m2 r with
        | none => none
        | some (k2, r2) => some (k + k2, r2)

/-- Ordered alternation of sub-matchers (`re` tries the left branch
first). -/
def malt (m1 m2 : Str → Option (Nat × Str)) : Str → Option (Nat × Str) :=
  fun s =>
    match m1 s with
    | some x => some x
    | none => m2 s

/-- Match the numbered-heading group body `\d+\.?\s+`.  The greedy choices
are forced: the following literal starts with a letter, so the digit run and
whitespace run must be maximal, and when a dot is present but not followed by
whitespace the group fails (backtracking to the dotless branch places `\s+`
at the dot, which also fails). -/
def numGroup (suffix : Str) : Option (Nat × Str) :=
  let ds := suffix.takeWhile Char.isDigit
  if ds = [] then none
  else
    match suffix.drop ds.length with
    | '.' :: r2 =>
        let ws := r2.takeWhile isPyWs
        if ws = [] then none
        else some (ds.length + 1 + ws.length, r2.drop ws.length)
    | r1 =>
        let ws := r1.takeWhile isPyWs
        if ws = [] then none
        else some (ds.length + ws.length, r1.drop ws.length)

/-- Optional trailing `s?` of plural headings, with backtracking into the
tail. -/
def optS (tail : Str → Option (Nat × Str)) : Str → Option (Nat × Str) :=
  malt (mseq (litCI (ofStr "s")) tail) tail

/-- One alternative of the section-header regex: `^`-anchored when
`anchored`, an optional numbered group when `withNum`, a case-insensitive
literal, and a tail.  An optional group is tried with the group first, then
without, as `re` does. -/
def headPat (anchored : Bool) (withNum : Bool) (lit : Str)
    (tail : Str → Option (Nat × Str)) (ls : Bool) (suffix : Str) :
    Option (Nat × Str) :=
  if anchored && !ls then none
  else if withNum then
    malt (mseq numGroup (mseq (litCI lit) tail)) (mseq (litCI lit) tail) suffix
  else mseq (litCI lit) tail suffix

/-- Pattern `^(\d+\.?\s+)?Methodology|Methods?\s*$`: the alternation bar
binds loosely, so the first branch is anchored and ends right after
`Methodology`, while the second branch `Methods?\s*$` is unanchored. -/
def methodsPat (ls : Bool) (suffix : Str) : Option (Nat × Str) :=
  malt (headPat true true (ofStr "methodology") emptyTail ls)
    (mseq (litCI (ofStr "method")) (optS wsDollar)) suffix

/-- Pattern `^[A-Z][A-Z\s]{2,}$` under IGNORECASE/MULTILINE: a letter
followed by at least two letters-or-whitespace characters, ending at
end-of-string or before a newline.  The class contains `\n`, so the greedy
run backtracks to the last admissible newline position. -/
def allCapsMatch (suffix : Str) : Option (Nat × Str) :=
  match suffix with
  | [] => none
  | c :: rest =>
      if c.isAlpha then
        let run := rest.takeWhile (fun d => d.isAlpha || isPyWs d)
        let m := run.length
        let after := rest.drop m
        if after = [] then
          if 2 ≤ m then some (1 + m, []) else none
        else
          match run.reverse.findIdx? (fun d => d = '\n') with
          | some j =>
              let k := m - 1 - j
              if 2 ≤ k then some (1 + k, suffix.drop (1 + k)) else none
          | none => none
      else none

/-- Pattern `^\d+\.\s+[A-Z]`; under IGNORECASE the final class matches any
ASCII letter, and the match ends immediately after that letter. -/
def numberedMatch (suffix : Str) : Option (Nat × Str) :=
  let ds := suffix.takeWhile Char.isDigit
  if ds = [] then none
  else
    match suffix.drop ds.length with
    | '.' :: r2 =>
        let ws := r2.takeWhile isPyWs
        if ws = [] then none
        else
          match r2.drop ws.length with
          | a :: r3 =>
              if a.isAlpha then some (ds.length + 2 + ws.length, r3) else none
          | [] => none
    | _ => none

/-- The thirteen alternatives of `_detect_sections`' combined pattern, in
source order. -/
def sectionPats : List (Bool → Str → Option (Nat × Str)) :=
  [ headPat true false (ofStr "abstract") wsDollar
  , headPat true true (ofStr "introduction") wsDollar
  , headPat true true (ofStr "background") wsDollar
  , headPat true true (ofStr "related work") wsDollar
  , methodsPat
  , headPat true true (ofStr "experiment") (optS wsDollar)
  , headPat true true (ofStr "result") (optS wsDollar)
  , headPat true true (ofStr "discussion") wsDollar
  , headPat true true (ofStr "conclusion") wsDollar
  , headPat true true (ofStr "reference") (optS wsDollar)
  , headPat true true (ofStr "appendix") wsDollar
  , fun ls s => if ls then allCapsMatch s else none
  , fun ls s => if ls then numberedMatch s else none ]

/-- Try a list of alternatives in order at one position. -/
def tryPats : List (Bool → Str → Option (Nat × Str)) → Bool → Str →
    Option (Nat × Str)
  | [], _, _ => none
  | p :: ps, ls, s =>
      match p ls s with
      | some x => some x
      | none => tryPats ps ls s

/-- One attempt of the combined header regex at a single position (`ls` says
the position is at the start of the string or right after a newline);
returns the matched length. -/
def headerMatchAt (ls : Bool) (suffix : Str) : Option Nat :=
  (tryPats sectionPats ls suffix).map (fun kr => kr.1)

/-- Leftmost scan of `re.finditer` for the combined header pattern: try the
pattern at every position left to right, emit non-overlapping spans, resume
after each match.  Every step advances the position, so `length + 1` fuel is
never exhausted. -/
def fmGo (s : Str) : Nat → Nat → List (Nat × Nat)
  | 0, _ => []
  | fuel + 1, i =>
      let ls : Bool := i == 0 || s.getD (i - 1) ' ' == '\n'
      match headerMatchAt ls (s.drop i) with
      | some len => (i, i + len) :: fmGo s fuel (i + max len 1)
      | none => if i < s.length then fmGo s fuel (i + 1) else []

/-- `re.finditer` of the combined section-header pattern: the list of
`(start, end)` spans. -/
def findMatches (s : Str) : List (Nat × Nat) := fmGo s (s.length + 1) 0

/-- Python slice `text[a:b]`. -/
def pySlice (s : Str) (a b : Nat) : Str := (s.take b).drop a

/-- Sections generated from the regex matches: each heading opens a section
whose body runs from the match end to the next match start (or end of text);
bodies and titles are stripped and empty bodies are dropped
(`_detect_sections` lines 136-144). -/
def sectionsFrom (text : Str) : List (Nat × Nat) → List (Option Str × Str)
  | [] => []
  | [(i, e)] =>
      let c := pyStrip (pySlice text e text.length)
      if c = [] then [] else [(some (pyStrip (pySlice text i e)), c)]
  | (i, e) :: (j, f) :: rest =>
      let c := pyStrip (pySlice text e j)
      (if c = [] then [] else [(some (pyStrip (pySlice text i e)), c)]) ++
        sectionsFrom text ((j, f) :: rest)

/-- `ChunkingService._detect_sections`: no match means the whole text is one
untitled section (returned unstripped); otherwise an optional untitled
leading section followed by one section per heading. -/
def detectSections (text : Str) : List (Option Str × Str) :=
  match findMatches text with
  | [] => [(none, text)]
  | (i, e) :: rest =>
      (if 0 < i then
        (let pre := pyStrip (pySlice text 0 i)
         if pre = [] then [] else [(none, pre)])
       else []) ++ sectionsFrom text ((i, e) :: rest)

/-- Raw inter-heading gap substrings of a text (no stripping): before the
first heading, between consecutive headings, after the last one. -/
def gapsAfter (text : Str) : List (Nat × Nat) → List Str
  | [] => []
  | [(_, e)] => [pySlice text e text.length]
  | (_, e) :: (j, f) :: rest => pySlice text e j :: gapsAfter text ((j, f) :: rest)

/-- All non-heading gap substrings, including the text before the first
heading (the whole text when nothing matches). -/
def gapsOf (text : Str) (ms : List (Nat × Nat)) : List Str :=
  match ms with
  | [] => [text]
  | (i, _) :: _ => pySlice text 0 i :: gapsAfter text ms

/-- Concatenation of everything in the text that is not part of a heading
match. -/
def nonHeadingContent (text : Str) : Str :=
  (gapsOf text (findMatches text)).flatten

/-- `ChunkData` of `chunking_service.py`: a text chunk ready for
embedding. -/
structure ChunkData where
  content : Str
  sectionTitle : Option Str
  chunkIndex : Nat
  tokenCount : Nat
deriving DecidableEq

/-- Mutable loop state of `_split_by_tokens`: chunks emitted so far, the
current sentence (or word) buffer, its tracked token count, and the next
chunk index. -/
structure SState where
  chunks : List ChunkData
  buf : List Str
  cur : Nat
  idx : Nat
deriving DecidableEq

/-- Flushing a buffer emits a chunk whose content is the stripped
space-join and whose token count re-runs the counter on the unstripped
join (`_split_by_tokens` lines 172-179 and analogous sites). -/
def mkChunk (tc : Str → Nat) (title : Option Str) (idx : Nat)
    (parts : List Str) : ChunkData :=
  ⟨pyStrip (joinSp parts), title, idx, tc (joinSp parts)⟩

/-- Overlap seeding (`_split_by_tokens` lines 229-241): walk the flushed
sentences from the end and keep a suffix whose cumulative token count stays
within the overlap budget, stopping at the first sentence that does not
fit.  `rem` is the reversed flushed buffer, `acc`/`ot` the seeded prefix and
its token count. -/
def ovLoop (tc : Str → Nat) (co : Nat) : List Str → List Str → Nat →
    List Str × Nat
  | [], acc, ot => (acc, ot)
  | s :: rest, acc, ot =>
      if ot + tc s ≤ co then ovLoop tc co rest (s :: acc) (ot + tc s)
      else (acc, ot)

/-- One iteration of the word-level fallback loop (`_split_by_tokens`
lines 190-207): flush the word buffer when the next word would overflow the
budget, then append the word.  The buffer is `SState.buf`, the tracked count
`SState.cur`. -/
def stepWord (tc : Str → Nat) (title : Option Str) (cs : Nat)
    (st : SState) (w : Str) : SState :=
  let wtc := tc (w ++ [' '])
  let st1 :=
    if cs < st.cur + wtc ∧ st.buf ≠ [] then
      { chunks := st.chunks ++ [mkChunk tc title st.idx st.buf]
        buf := [], cur := 0, idx := st.idx + 1 }
    else st
  { st1 with buf := st1.buf ++ [w], cur := st1.cur + wtc }

/-- One iteration of the sentence loop of `_split_by_tokens`
(lines 165-244): oversized sentences go through the word-level fallback
(flush pending buffer, split the sentence by words, seed the buffer with the
final word group); otherwise flush-with-overlap when the sentence would
overflow, then append the sentence. -/
def stepSentence (tc : Str → Nat) (title : Option Str) (cs co : Nat)
    (st : SState) (s : Str) : SState :=
  let stoks := tc s
  if cs < stoks then
    let st1 :=
      if st.buf = [] then st
      else
        { chunks := st.chunks ++ [mkChunk tc title st.idx st.buf]
          buf := [], cur := 0, idx := st.idx + 1 }
    let w := (pySplitWs s).foldl (stepWord tc title cs)
      { chunks := st1.chunks, buf := [], cur := 0, idx := st1.idx }
    if w.buf = [] then { chunks := w.chunks, buf := [], cur := 0, idx := w.idx }
    else { chunks := w.chunks, buf := w.buf, cur := w.cur, idx := w.idx }
  else
    let st1 :=
      if cs < st.cur + stoks ∧ st.buf ≠ [] then
        let ov := ovLoop tc co st.buf.reverse [] 0
        { chunks := st.chunks ++ [mkChunk tc title st.idx st.buf]
          buf := ov.1, cur := ov.2, idx := st.idx + 1 }
      else st
    { st1 with buf := st1.buf ++ [s], cur := st1.cur + stoks }

/-- `ChunkingService._split_by_tokens`: split a section's text by sentences
with budget `cs` and overlap `co`, starting at chunk index `i0`; the final
buffer is flushed at the end. -/
def splitByTokens (tc : Str → Nat) (text : Str) (title : Option Str)
    (cs co : Nat) (i0 : Nat) : List ChunkData :=
  let st := (splitSentences text).foldl (stepSentence tc title cs co)
    { chunks := [], buf := [], cur := 0, idx := i0 }
  st.chunks ++ (if st.buf = [] then [] else [mkChunk tc title st.idx st.buf])

/-- One iteration of the section loop of `chunk_text` (lines 66-90): a
section within budget becomes one chunk (stripped content, token count of
the unstripped body); a larger section is split by tokens.  The accumulator
carries the chunks so far and the global chunk index. -/
def secStep (tc : Str → Nat) (cs co : Nat) (acc : List ChunkData × Nat)
    (sec : Option Str × Str) : List ChunkData × Nat :=
  let n := tc sec.2
  if n ≤ cs then
    (acc.1 ++ [⟨pyStrip sec.2, sec.1, acc.2, n⟩], acc.2 + 1)
  else
    let cks := splitByTokens tc sec.2 sec.1 cs co acc.2
    (acc.1 ++ cks, acc.2 + cks.length)

/-- `ChunkingService.chunk_text` with explicit (valid) chunk size and
overlap: detect sections, emit small sections whole, split large sections
by tokens; the global chunk index advances across sections. -/
def chunkText (tc : Str → Nat) (text : Str) (cs co : Nat) : List ChunkData :=
  ((detectSections text).foldl (secStep tc cs co) ([], 0)).1

theorem foldl_inv {α σ : Type _} {P : σ → Prop} {Q : α → Prop}
    (step : σ → α → σ)
    (hstep : ∀ st x, Q x → P st → P (step st x)) :
    ∀ (l : List α) (st : σ), (∀ x ∈ l, Q x) → P st → P (l.foldl step st) := by
  intro l
  induction l with
  | nil => intro st _ h; exact h
  | cons x xs ih =>
      intro st hq h
      exact ih _ (fun y hy => hq y (by simp [hy]))
        (hstep st x (hq x (by simp)) h)

/-- Shape of every emitted chunk: its content is the strip of some
strip-fixed string `u` and its token count re-runs the counter on `u`. -/
def ShapeOK (tc : Str → Nat) (ch : ChunkData) : Prop :=
  ∃ u, pyStrip u = u ∧ ch.content = pyStrip u ∧ ch.tokenCount = tc u

/-- Shape invariant of the `_split_by_tokens` loop state. -/
def InvA (tc : Str → Nat) (st : SState) : Prop :=
  (∀ p ∈ st.buf, GoodPart p) ∧ ∀ ch ∈ st.chunks, ShapeOK tc ch

theorem mkChunk_shape (tc : Str → Nat) (title : Option Str) (idx : Nat)
    {parts : List Str} (hp : ∀ p ∈ parts, GoodPart p) :
    ShapeOK tc (mkChunk tc title idx parts) :=
  ⟨joinSp parts, good_join parts hp, rfl, rfl⟩

theorem ovLoop_mem (tc : Str → Nat) (co : Nat) :
    ∀ (rem acc : List Str) (ot : Nat) (p : Str),
      p ∈ (ovLoop tc co rem acc ot).1 → p ∈ rem ∨ p ∈ acc := by
  intro rem
  induction rem with
  | nil => intro acc ot p hp; exact Or.inr hp
  | cons s rest ih =>
      intro acc ot p hp
      rw [ovLoop] at hp
      by_cases h : ot + tc s ≤ co
      · rw [if_pos h] at hp
        rcases ih (s :: acc) (ot + tc s) p hp with h1 | h1
        · exact Or.inl (by simp [h1])
        · rcases List.mem_cons.mp h1 with h2 | h2
          · exact Or.inl (by simp [h2])
          · exact Or.inr h2
      · rw [if_neg h] at hp
        exact Or.inr hp

theorem stepWord_invA (tc : Str → Nat) (title : Option Str) (cs : Nat)
    (st : SState) (w : Str) (hw : GoodPart w) (h : InvA tc st) :
    InvA tc (stepWord tc title cs st w) := by
  obtain ⟨hbuf, hchunks⟩ := h
  simp only [stepWord]
  by_cases hc : cs < st.cur + tc (w ++ [' ']) ∧ st.buf ≠ []
  · rw [if_pos hc]
    constructor
    · intro p hp
      rcases List.mem_append.mp hp with hp | hp
      · simp at hp
      · rw [List.mem_singleton] at hp; subst hp; exact hw
    · intro ch hch
      rcases List.mem_append.mp hch with hch | hch
      · exact hchunks ch hch
      · rw [List.mem_singleton] at hch; subst hch
        exact mkChunk_shape tc title st.idx hbuf
  · rw [if_neg hc]
    refine ⟨?_, hchunks⟩
    intro p hp
    rcases List.mem_append.mp hp with hp | hp
    · exact hbuf p hp
    · rw [List.mem_singleton] at hp; subst hp; exact hw

theorem stepSentence_invA (tc : Str → Nat) (title : Option Str) (cs co : Nat)
    (st : SState) (s : Str) (hs : GoodPart s) (h : InvA tc st) :
    InvA tc (stepSentence tc title cs co st s) := by
  obtain ⟨hbuf, hchunks⟩ := h
  simp only [stepSentence]
  by_cases hbig : cs < tc s
  · rw [if_pos hbig]
    set st1 : SState := (if st.buf = [] then st
        else { chunks := st.chunks ++ [mkChunk tc title st.idx st.buf],
               buf := [], cur := 0, idx := st.idx + 1 }) with hst1def
    have hst1 : InvA tc st1 := by
      rw [hst1def]
      by_cases hb : st.buf = []
      · rw [if_pos hb]; exact ⟨hbuf, hchunks⟩
      · rw [if_neg hb]
        refine ⟨by simp, ?_⟩
        intro ch hch
        rcases List.mem_append.mp hch with hch | hch
        · exact hchunks ch hch
        · rw [List.mem_singleton] at hch; subst hch
          exact mkChunk_shape tc title st.idx hbuf
    set wfin : SState := (pySplitWs s).foldl (stepWord tc title cs)
      { chunks := st1.chunks, buf := [], cur := 0, idx := st1.idx } with hwdef
    have hw : InvA tc wfin := by
      rw [hwdef]
      apply foldl_inv (stepWord tc title cs)
        (fun stx w hw hst => stepWord_invA tc title cs stx w hw hst)
      · intro w hwmem
        obtain ⟨hne, hnws⟩ := pySplitWs_mem hwmem
        exact goodPart_of_word hne hnws
      · exact ⟨by simp, hst1.2⟩
    by_cases hwb : wfin.buf = []
    · rw [if_pos hwb]
      exact ⟨by simp, hw.2⟩
    · rw [if_neg hwb]
      exact ⟨hw.1, hw.2⟩
  · rw [if_neg hbig]
    have hst1 : InvA tc (if cs < st.cur + tc s ∧ st.buf ≠ [] then
        { chunks := st.chunks ++ [mkChunk tc title st.idx st.buf],
          buf := (ovLoop tc co st.buf.reverse [] 0).1,
          cur := (ovLoop tc co st.buf.reverse [] 0).2, idx := st.idx + 1 }
      else st) := by
      by_cases hfl : cs < st.cur + tc s ∧ st.buf ≠ []
      · rw [if_pos hfl]
        constructor
        · intro p hp
          rcases ovLoop_mem tc co st.buf.reverse [] 0 p hp with h1 | h1
          · exact hbuf p (List.mem_reverse.mp h1)
          · simp at h1
        · intro ch hch
          rcases List.mem_append.mp hch with hch | hch
          · exact hchunks ch hch
          · rw [List.mem_singleton] at hch; subst hch
            exact mkChunk_shape tc title st.idx hbuf
      · rw [if_neg hfl]; exact ⟨hbuf, hchunks⟩
    refine ⟨?_, hst1.2⟩
    intro p hp
    rcases List.mem_append.mp hp with hp | hp
    · exact hst1.1 p hp
    · rw [List.mem_singleton] at hp; subst hp; exact hs

theorem splitByTokens_shape (tc : Str → Nat) (text : Str)
    (title : Option Str) (cs co i0 : Nat) :
    ∀ ch ∈ splitByTokens tc text title cs co i0, ShapeOK tc ch := by
  intro ch hch
  simp only [splitByTokens] at hch
  have hst : InvA tc ((splitSentences text).foldl
      (stepSentence tc title cs co) ⟨[], [], 0, i0⟩) := by
    apply foldl_inv (stepSentence tc title cs co)
      (fun stx sx hsx hstx => stepSentence_invA tc title cs co stx sx hsx hstx)
    · intro sx hsx; exact splitSentences_good hsx
    · exact ⟨by simp, by simp⟩
  rcases List.mem_append.mp hch with hch | hch
  · exact hst.2 ch hch
  · by_cases hb : ((splitSentences text).foldl
        (stepSentence tc title cs co) ⟨[], [], 0, i0⟩).buf = []
    · rw [if_pos hb] at hch; simp at hch
    · rw [if_neg hb] at hch
      rw [List.mem_singleton] at hch; subst hch
      exact mkChunk_shape tc title _ hst.1

/-- Budget disjunction for an emitted chunk: within `cs + co`, or its
content contains a word whose own token count already exceeds the budget
(the word-level-fallback escape hatch of the spec). -/
def BoundOK (tc : Str → Nat) (cs co : Nat) (ch : ChunkData) : Prop :=
  ch.tokenCount ≤ cs + co ∨ ∃ w ∈ pySplitWs ch.content, cs < tc w

/-- Budget invariant of the `_split_by_tokens` loop state: good buffer,
tracked count equal to the counter on the joined buffer, the buffer within
the budget disjunction, and every emitted chunk within it too. -/
def InvB (tc : Str → Nat) (cs co : Nat) (st : SState) : Prop :=
  (∀ p ∈ st.buf, GoodPart p) ∧
  st.cur = tc (joinSp st.buf) ∧
  (st.cur ≤ cs + co ∨ ∃ w ∈ pySplitWs (joinSp st.buf), cs < tc w) ∧
  ∀ ch ∈ st.chunks, BoundOK tc cs co ch

theorem ovLoop_inv (tc : Str → Nat)
    (hJoin : ∀ a b, tc (a ++ ' ' :: b) = tc a + tc b) (hNil : tc [] = 0)
    (co : Nat) :
    ∀ (rem acc : List Str) (ot : Nat), ot = tc (joinSp acc) → ot ≤ co →
      (ovLoop tc co rem acc ot).2 = tc (joinSp (ovLoop tc co rem acc ot).1) ∧
      (ovLoop tc co rem acc ot).2 ≤ co := by
  intro rem
  induction rem with
  | nil => intro acc ot h1 h2; exact ⟨h1, h2⟩
  | cons s rest ih =>
      intro acc ot h1 h2
      simp only [ovLoop]
      by_cases h : ot + tc s ≤ co
      · rw [if_pos h]
        exact ih (s :: acc) (ot + tc s)
          (by rw [tc_joinSp_cons tc hJoin hNil, ← h1]; omega) h
      · rw [if_neg h]; exact ⟨h1, h2⟩

theorem stepWord_invB (tc : Str → Nat)
    (hJoin : ∀ a b, tc (a ++ ' ' :: b) = tc a + tc b) (hNil : tc [] = 0)
    (title : Option Str) (cs co : Nat)
    (st : SState) (w : Str) (hw : GoodPart w) (hwords : pySplitWs w = [w])
    (h : InvB tc cs co st) : InvB tc cs co (stepWord tc title cs st w) := by
  obtain ⟨hbuf, hcur, hdisj, hchunks⟩ := h
  have hwtc : tc (w ++ [' ']) = tc w := by
    have h2 : w ++ [' '] = w ++ ' ' :: ([] : Str) := rfl
    rw [h2, hJoin, hNil]
    omega
  simp only [stepWord]
  by_cases hc : cs < st.cur + tc (w ++ [' ']) ∧ st.buf ≠ []
  · rw [if_pos hc]
    refine ⟨?_, ?_, ?_, ?_⟩
    · intro p hp
      simp only [List.nil_append, List.mem_singleton] at hp
      subst hp; exact hw
    · show 0 + tc (w ++ [' ']) = tc (joinSp ([] ++ [w]))
      simp [joinSp, hwtc]
    · by_cases hbw : tc w ≤ cs
      · left
        show 0 + tc (w ++ [' ']) ≤ cs + co
        rw [hwtc]; omega
      · right
        refine ⟨w, ?_, by omega⟩
        show w ∈ pySplitWs (joinSp ([] ++ [w]))
        simp [joinSp, hwords]
    · intro ch hch
      rcases List.mem_append.mp hch with hch | hch
      · exact hchunks ch hch
      · rw [List.mem_singleton] at hch; subst hch
        show tc (joinSp st.buf) ≤ cs + co ∨
          ∃ x ∈ pySplitWs (pyStrip (joinSp st.buf)), cs < tc x
        rw [good_join st.buf hbuf, ← hcur]
        exact hdisj
  · rw [if_neg hc]
    refine ⟨?_, ?_, ?_, hchunks⟩
    · intro p hp
      rcases List.mem_append.mp hp with hp | hp
      · exact hbuf p hp
      · rw [List.mem_singleton] at hp; subst hp; exact hw
    · show st.cur + tc (w ++ [' ']) = tc (joinSp (st.buf ++ [w]))
      rw [tc_joinSp_append tc hJoin hNil, ← hcur, hwtc]
    · by_cases hfit : st.cur + tc (w ++ [' ']) ≤ cs
      · left
        show st.cur + tc (w ++ [' ']) ≤ cs + co
        omega
      · have hbe : st.buf = [] := by
          by_contra hne
          exact hc ⟨by omega, hne⟩
        have hcur0 : st.cur = 0 := by
          rw [hcur, hbe]; exact hNil
        have hlt : cs < tc w := by rw [← hwtc]; omega
        right
        refine ⟨w, ?_, hlt⟩
        show w ∈ pySplitWs (joinSp (st.buf ++ [w]))
        rw [hbe]
        simp [joinSp, hwords]

theorem stepSentence_invB (tc : Str → Nat)
    (hJoin : ∀ a b, tc (a ++ ' ' :: b) = tc a + tc b) (hNil : tc [] = 0)
    (title : Option Str) (cs co : Nat)
    (st : SState) (s : Str) (hs : GoodPart s) (h : InvB tc cs co st) :
    InvB tc cs co (stepSentence tc title cs co st s) := by
  obtain ⟨hbuf, hcur, hdisj, hchunks⟩ := h
  simp only [stepSentence]
  by_cases hbig : cs < tc s
  · rw [if_pos hbig]
    set st1 : SState := (if st.buf = [] then st
        else { chunks := st.chunks ++ [mkChunk tc title st.idx st.buf],
               buf := [], cur := 0, idx := st.idx + 1 }) with hst1def
    have hst1c : ∀ ch ∈ st1.chunks, BoundOK tc cs co ch := by
      rw [hst1def]
      by_cases hb : st.buf = []
      · rw [if_pos hb]; exact hchunks
      · rw [if_neg hb]
        intro ch hch
        rcases List.mem_append.mp hch with hch | hch
        · exact hchunks ch hch
        · rw [List.mem_singleton] at hch; subst hch
          show tc (joinSp st.buf) ≤ cs + co ∨
            ∃ x ∈ pySplitWs (pyStrip (joinSp st.buf)), cs < tc x
          rw [good_join st.buf hbuf, ← hcur]
          exact hdisj
    set wfin : SState := (pySplitWs s).foldl (stepWord tc title cs)
      { chunks := st1.chunks, buf := [], cur := 0, idx := st1.idx } with hwdef
    have hw : InvB tc cs co wfin := by
      rw [hwdef]
      refine @foldl_inv Str SState (InvB tc cs co) (fun w => w ∈ pySplitWs s)
        (stepWord tc title cs) ?_ (pySplitWs s) _ (fun x hx => hx)
        ⟨by simp, hNil.symm, Or.inl (Nat.zero_le _), hst1c⟩
      intro stx w hwmem hst
      obtain ⟨hne, hnws⟩ := pySplitWs_mem hwmem
      exact stepWord_invB tc hJoin hNil title cs co stx w
        (goodPart_of_word hne hnws) (pySplitWs_single hne hnws) hst
    by_cases hwb : wfin.buf = []
    · rw [if_pos hwb]
      exact ⟨by simp, hNil.symm, Or.inl (Nat.zero_le _), hw.2.2.2⟩
    · rw [if_neg hwb]
      exact hw
  · rw [if_neg hbig]
    by_cases hfl : cs < st.cur + tc s ∧ st.buf ≠ []
    · rw [if_pos hfl]
      have hov := ovLoop_inv tc hJoin hNil co st.buf.reverse [] 0
        hNil.symm (Nat.zero_le _)
      refine ⟨?_, ?_, ?_, ?_⟩
      · intro p hp
        rcases List.mem_append.mp hp with hp | hp
        · rcases ovLoop_mem tc co st.buf.reverse [] 0 p hp with h1 | h1
          · exact hbuf p (List.mem_reverse.mp h1)
          · simp at h1
        · rw [List.mem_singleton] at hp; subst hp; exact hs
      · show (ovLoop tc co st.buf.reverse [] 0).2 + tc s =
          tc (joinSp ((ovLoop tc co st.buf.reverse [] 0).1 ++ [s]))
        rw [tc_joinSp_append tc hJoin hNil, hov.1]
      · left
        show (ovLoop tc co st.buf.reverse [] 0).2 + tc s ≤ cs + co
        have h2 := hov.2
        omega
      · intro ch hch
        rcases List.mem_append.mp hch with hch | hch
        · exact hchunks ch hch
        · rw [List.mem_singleton] at hch; subst hch
          show tc (joinSp st.buf) ≤ cs + co ∨
            ∃ x ∈ pySplitWs (pyStrip (joinSp st.buf)), cs < tc x
          rw [good_join st.buf hbuf, ← hcur]
          exact hdisj
    · rw [if_neg hfl]
      refine ⟨?_, ?_, ?_, hchunks⟩
      · intro p hp
        rcases List.mem_append.mp hp with hp | hp
        · exact hbuf p hp
        · rw [List.mem_singleton] at hp; subst hp; exact hs
      · show st.cur + tc s = tc (joinSp (st.buf ++ [s]))
        rw [tc_joinSp_append tc hJoin hNil, ← hcur]
      · by_cases hfit : st.cur + tc s ≤ cs
        · left
          show st.cur + tc s ≤ cs + co
          omega
        · have hbe : st.buf = [] := by
            by_contra hne
            exact hfl ⟨by omega, hne⟩
          have hcur0 : st.cur = 0 := by
            rw [hcur, hbe]; exact hNil
          left
          show st.cur + tc s ≤ cs + co
          omega

theorem splitByTokens_bound (tc : Str → Nat)
    (hJoin : ∀ a b, tc (a ++ ' ' :: b) = tc a + tc b) (hNil : tc [] = 0)
    (text : Str) (title : Option Str) (cs co i0 : Nat) :
    ∀ ch ∈ splitByTokens tc text title cs co i0, BoundOK tc cs co ch := by
  intro ch hch
  simp only [splitByTokens] at hch
  set stf : SState := (splitSentences text).foldl
    (stepSentence tc title cs co) ⟨[], [], 0, i0⟩ with hstf
  have hst : InvB tc cs co stf := by
    rw [hstf]
    refine @foldl_inv Str SState (InvB tc cs co) GoodPart
      (stepSentence tc title cs co) ?_ (splitSentences text) _
      (fun x hx => splitSentences_good hx)
      ⟨by simp, hNil.symm, Or.inl (Nat.zero_le _), by simp⟩
    intro stx sx hsx hstx
    exact stepSentence_invB tc hJoin hNil title cs co stx sx hsx hstx
  rcases List.mem_append.mp hch with hch | hch
  · exact hst.2.2.2 ch hch
  · by_cases hb : stf.buf = []
    · rw [if_pos hb] at hch; simp at hch
    · rw [if_neg hb] at hch
      rw [List.mem_singleton] at hch; subst hch
      show tc (joinSp stf.buf) ≤ cs + co ∨
        ∃ x ∈ pySplitWs (pyStrip (joinSp stf.buf)), cs < tc x
      rw [good_join stf.buf hst.1, ← hst.2.1]
      exact hst.2.2.1

theorem chunkText_mem_aux (tc : Str → Nat) (cs co : Nat) :
    ∀ (secs : List (Option Str × Str)) (acc : List ChunkData × Nat)
      (ch : ChunkData), ch ∈ (secs.foldl (secStep tc cs co) acc).1 →
      ch ∈ acc.1 ∨
      ∃ sec ∈ secs,
        ((tc sec.2 ≤ cs ∧ ∃ i, ch = ⟨pyStrip sec.2, sec.1, i, tc sec.2⟩) ∨
         (cs < tc sec.2 ∧ ∃ i0, ch ∈ splitByTokens tc sec.2 sec.1 cs co i0)) := by
  intro secs
  induction secs with
  | nil => intro acc ch h; exact Or.inl h
  | cons sec rest ih =>
      intro acc ch h
      rcases ih (secStep tc cs co acc sec) ch h with h1 | h1
      · simp only [secStep] at h1
        by_cases hle : tc sec.2 ≤ cs
        · rw [if_pos hle] at h1
          rcases List.mem_append.mp h1 with h2 | h2
          · exact Or.inl h2
          · rw [List.mem_singleton] at h2
            exact Or.inr ⟨sec, by simp, Or.inl ⟨hle, acc.2, h2⟩⟩
        · rw [if_neg hle] at h1
          rcases List.mem_append.mp h1 with h2 | h2
          · exact Or.inl h2
          · exact Or.inr ⟨sec, by simp, Or.inr ⟨by omega, acc.2, h2⟩⟩
      · obtain ⟨sec2, hmem, hprop⟩ := h1
        exact Or.inr ⟨sec2, by simp [hmem], hprop⟩

theorem chunkText_mem {tc : Str → Nat} {text : Str} {cs co : Nat}
    {ch : ChunkData} (h : ch ∈ chunkText tc text cs co) :
    ∃ sec ∈ detectSections text,
      ((tc sec.2 ≤ cs ∧ ∃ i, ch = ⟨pyStrip sec.2, sec.1, i, tc sec.2⟩) ∨
       (cs < tc sec.2 ∧ ∃ i0, ch ∈ splitByTokens tc sec.2 sec.1 cs co i0)) := by
  unfold chunkText at h
  rcases chunkText_mem_aux tc cs co (detectSections text) ([], 0) ch h with h1 | h1
  · simp at h1
  · exact h1

theorem sectionsFrom_body_stripped (text : Str) :
    ∀ (ms : List (Nat × Nat)) (sec : Option Str × Str),
      sec ∈ sectionsFrom text ms → pyStrip sec.2 = sec.2 := by
  intro ms
  induction ms with
  | nil => intro sec h; simp [sectionsFrom] at h
  | cons m rest ih =>
      intro sec h
      cases rest with
      | nil =>
          obtain ⟨i, e⟩ := m
          simp only [sectionsFrom] at h
          by_cases hc : pyStrip (pySlice text e text.length) = []
          · rw [if_pos hc] at h; simp at h
          · rw [if_neg hc] at h
            rw [List.mem_singleton] at h
            subst h
            exact pyStrip_idem _
      | cons m2 rest2 =>
          obtain ⟨i, e⟩ := m
          obtain ⟨j, f⟩ := m2
          simp only [sectionsFrom] at h
          rcases List.mem_append.mp h with h1 | h1
          · by_cases hc : pyStrip (pySlice text e j) = []
            · rw [if_pos hc] at h1; simp at h1
            · rw [if_neg hc] at h1
              rw [List.mem_singleton] at h1
              subst h1
              exact pyStrip_idem _
          · exact ih sec h1

theorem detectSections_body_stripped {text : Str} (hfix : pyStrip text = text) :
    ∀ sec ∈ detectSections text, pyStrip sec.2 = sec.2 := by
  intro sec h
  cases hm : findMatches text with
  | nil =>
      have hds : detectSections text = [(none, text)] := by
        unfold detectSections; rw [hm]
      rw [hds] at h
      rw [List.mem_singleton] at h
      subst h
      exact hfix
  | cons m rest =>
      obtain ⟨i, e⟩ := m
      have hds : detectSections text =
          (if 0 < i then
            (if pyStrip (pySlice text 0 i) = [] then []
             else [(none, pyStrip (pySlice text 0 i))])
           else []) ++ sectionsFrom text ((i, e) :: rest) := by
        unfold detectSections; rw [hm]
      rw [hds] at h
      rcases List.mem_append.mp h with h1 | h1
      · by_cases hi : 0 < i
        · rw [if_pos hi] at h1
          by_cases hp : pyStrip (pySlice text 0 i) = []
          · rw [if_pos hp] at h1; simp at h1
          · rw [if_neg hp] at h1
            rw [List.mem_singleton] at h1
            subst h1
            exact pyStrip_idem _
        · rw [if_neg hi] at h1; simp at h1
      · exact sectionsFrom_body_stripped text _ sec h1

/-- Example text for the overlap-seeding counterexample: three sentences of
four words each. -/
def exOverlapText : Str := ofStr "aa bb cc dd. Ee ff gg hh. Ii jj kk ll."

/-- C1: FALSE as stated.  With the token counter modelled as word count,
text `"aa bb cc dd. Ee ff gg hh. Ii jj kk ll."`, `chunk_size_tokens = 10`
and `overlap_tokens = 8` (a valid pair), `chunk_text` emits a second chunk
of 12 tokens, which exceeds the budget although no single word exceeds it
(so the word-level-fallback escape clause does not apply): after flushing
`[s1, s2]`, the overlap seeding re-adds both sentences (8 ≤ 8 tokens) and
the seeded buffer plus the next sentence is never re-checked against the
budget. -/
theorem c1_budget_counterexample : 0 < 10 ∧ 8 < 10 ∧
    ∃ ch ∈ chunkText wordCount exOverlapText 10 8,
      ¬ (ch.tokenCount ≤ 10 ∨ ∃ w ∈ pySplitWs ch.content, 10 < wordCount w) := by
  decide

/-- C1 (amended): for every token counter that is additive over the
space-joins the builder performs (`tc (a ++ " " ++ b) = tc a + tc b`,
`tc "" = 0`; word count is such a counter), every input text and every
valid `(chunk_size, overlap)` pair, every chunk produced by `chunk_text`
has `token_count ≤ chunk_size + overlap_tokens` — the overlap-seeded
buffer can exceed the bare budget by up to `overlap_tokens` — except a
chunk containing a single word whose own token count already exceeds the
budget (the word-level fallback). -/
theorem c1_amended_budget (tc : Str → Nat)
    (hJoin : ∀ a b, tc (a ++ ' ' :: b) = tc a + tc b) (hNil : tc [] = 0)
    (text : Str) (cs co : Nat) (hcs : 0 < cs) (hco : co < cs)
    (ch : ChunkData) (h : ch ∈ chunkText tc text cs co) :
    ch.tokenCount ≤ cs + co ∨ ∃ w ∈ pySplitWs ch.content, cs < tc w := by
  rcases chunkText_mem h with ⟨sec, hsec, hcase⟩
  rcases hcase with ⟨hle, i, rfl⟩ | ⟨hgt, i0, hsp⟩
  · left
    show tc sec.2 ≤ cs + co
    omega
  · exact splitByTokens_bound tc hJoin hNil sec.2 sec.1 cs co i0 ch hsp

/-- Witness for the amended C1 bound at the counterexample input: the
oversized chunk stays within `chunk_size + overlap = 18`. -/
theorem c1_amended_budget_witness :
    (⟨exOverlapText, none, 1, 12⟩ : ChunkData).tokenCount ≤ 10 + 8 ∨
    ∃ w ∈ pySplitWs (ChunkData.content ⟨exOverlapText, none, 1, 12⟩),
      10 < wordCount w :=
  c1_amended_budget wordCount wordCount_append_space rfl exOverlapText 10 8
    (by decide) (by decide) ⟨exOverlapText, none, 1, 12⟩ (by decide)

/-- C2: FALSE as stated.  With a whitespace-sensitive token counter
(character count; the real cl100k encoder is also whitespace-sensitive) and
input `" hi "`, no heading matches, `_detect_sections` returns the raw
unstripped text as the single section, and `chunk_text` stores
`token_count = tc " hi " = 4` while the chunk's content is the stripped
`"hi"` whose recount is 2. -/
theorem c2_token_consistency_counterexample : 0 < 10 ∧ 0 < 10 ∧
    ∃ ch ∈ chunkText charCount (ofStr " hi ") 10 0,
      ch.tokenCount ≠ charCount ch.content := by
  decide

/-- C2 (amended): for every token counter, every valid parameter pair and
every input text with no leading or trailing whitespace, every chunk
returned by `chunk_text` has `token_count` equal to re-running the counter
on its own content.  (The only divergence in general is the untitled
whole-text section emitted when no heading matches: its `token_count` is
computed on the raw input while the stored content is stripped.) -/
theorem c2_amended_token_consistency (tc : Str → Nat) (text : Str)
    (cs co : Nat) (hfix : pyStrip text = text)
    (ch : ChunkData) (h : ch ∈ chunkText tc text cs co) :
    ch.tokenCount = tc ch.content := by
  rcases chunkText_mem h with ⟨sec, hsec, hcase⟩
  rcases hcase with ⟨hle, i, rfl⟩ | ⟨hgt, i0, hsp⟩
  · have hb := detectSections_body_stripped hfix sec hsec
    show tc sec.2 = tc (pyStrip sec.2)
    rw [hb]
  · obtain ⟨u, hu, hcontent, hcount⟩ :=
      splitByTokens_shape tc sec.2 sec.1 cs co i0 ch hsp
    rw [hcount, hcontent, hu]

/-- Witness for the amended C2 self-consistency at a trimmed input. -/
theorem c2_amended_witness :
    (⟨ofStr "hi", none, 0, 2⟩ : ChunkData).tokenCount =
      charCount (ChunkData.content ⟨ofStr "hi", none, 0, 2⟩) :=
  c2_amended_token_consistency charCount (ofStr "hi") 10 0 (by decide)
    ⟨ofStr "hi", none, 0, 2⟩ (by decide)

/-- C3: the code contradicts its own test `test_chunk_empty_text`
(`chunk_text("") == []`): on the empty string no heading matches,
`_detect_sections` returns `[(None, "")]`, the empty section's token count
`0` is within any positive budget, and `chunk_text` returns a single empty
chunk instead of the empty list. -/
theorem c3_empty_input_single_empty_chunk (tc : Str → Nat) (cs co : Nat)
    (hNil : tc [] = 0) (hcs : 0 < cs) :
    chunkText tc [] cs co = [⟨[], none, 0, 0⟩] := by
  have hds : detectSections [] = [(none, [])] := by decide
  unfold chunkText
  rw [hds]
  show (secStep tc cs co ([], 0) (none, [])).1 = [⟨[], none, 0, 0⟩]
  simp only [secStep]
  rw [hNil]
  rw [if_pos (Nat.zero_le cs)]
  simp [pyStrip_nil]

/-- Witness for C3 at concrete parameters. -/
theorem c3_witness : chunkText wordCount [] 512 50 = [⟨[], none, 0, 0⟩] :=
  c3_empty_input_single_empty_chunk wordCount 512 50 rfl (by decide)

/-- C9: every chunk returned by `chunk_text` has content equal to its own
stripped form — every emission site stores `*.strip()` output, and
stripping is idempotent. -/
theorem c9_content_stripped (tc : Str → Nat) (text : Str) (cs co : Nat)
    (ch : ChunkData) (h : ch ∈ chunkText tc text cs co) :
    pyStrip ch.content = ch.content := by
  rcases chunkText_mem h with ⟨sec, hsec, hcase⟩
  rcases hcase with ⟨hle, i, rfl⟩ | ⟨hgt, i0, hsp⟩
  · exact pyStrip_idem sec.2
  · obtain ⟨u, hu, hcontent, _⟩ :=
      splitByTokens_shape tc sec.2 sec.1 cs co i0 ch hsp
    rw [hcontent, pyStrip_idem]

/-- Witness for C9 at a concrete input. -/
theorem c9_witness :
    pyStrip (ChunkData.content ⟨ofStr "hi", none, 0, 1⟩) =
      ChunkData.content ⟨ofStr "hi", none, 0, 1⟩ :=
  c9_content_stripped wordCount (ofStr "hi") 100 10
    ⟨ofStr "hi", none, 0, 1⟩ (by decide)

theorem sectionsFrom_recon (text : Str) :
    ∀ ms : List (Nat × Nat),
      ((sectionsFrom text ms).map Prod.snd).flatten =
      ((gapsAfter text ms).map pyStrip).flatten := by
  intro ms
  induction ms with
  | nil => rfl
  | cons m rest ih =>
      cases rest with
      | nil =>
          obtain ⟨i, e⟩ := m
          simp only [sectionsFrom, gapsAfter]
          by_cases hc : pyStrip (pySlice text e text.length) = []
          · rw [if_pos hc]; simp [hc]
          · rw [if_neg hc]; simp
      | cons m2 rest2 =>
          obtain ⟨i, e⟩ := m
          obtain ⟨j, f⟩ := m2
          simp only [sectionsFrom, gapsAfter]
          by_cases hc : pyStrip (pySlice text e j) = []
          · rw [if_pos hc]
            simp [hc, ih]
          · rw [if_neg hc]
            simp [ih]

/-- C8: FALSE as stated.  On `"Abstract\nx"` the only heading match is the
span `(0, 8)` (`Abstract`); the non-heading remainder of the text is
`"\nx"`, but the Section Detector's sole body is the stripped `"x"`, so
concatenating bodies does not reproduce the non-heading content exactly. -/
theorem c8_reconstruction_counterexample :
    ((detectSections (ofStr "Abstract\nx")).map Prod.snd).flatten ≠
      nonHeadingContent (ofStr "Abstract\nx") := by
  decide

/-- C8 (amended): concatenating the Section Detector's bodies in order
reproduces the non-heading content of the text up to stripping: it equals
the concatenation of the whitespace-stripped inter-heading gaps (bodies are
the stripped gaps with empty ones dropped); when no heading matches at all,
the whole raw text is returned unchanged. -/
theorem c8_amended_reconstruction (text : Str) :
    ((detectSections text).map Prod.snd).flatten =
      if findMatches text = [] then text
      else ((gapsOf text (findMatches text)).map pyStrip).flatten := by
  cases hm : findMatches text with
  | nil =>
      rw [if_pos rfl]
      have hds : detectSections text = [(none, text)] := by
        unfold detectSections; rw [hm]
      rw [hds]; simp
  | cons m rest =>
      obtain ⟨i, e⟩ := m
      rw [if_neg (by simp)]
      have hds : detectSections text =
          (if 0 < i then
            (if pyStrip (pySlice text 0 i) = [] then []
             else [(none, pyStrip (pySlice text 0 i))])
           else []) ++ sectionsFrom text ((i, e) :: rest) := by
        unfold detectSections; rw [hm]
      have hgaps : gapsOf text ((i, e) :: rest) =
          pySlice text 0 i :: gapsAfter text ((i, e) :: rest) := rfl
      rw [hds, hgaps, List.map_append, List.flatten_append, List.map_cons,
        List.flatten_cons, sectionsFrom_recon]
      congr 1
      by_cases hi : 0 < i
      · rw [if_pos hi]
        by_cases hp : pyStrip (pySlice text 0 i) = []
        · rw [if_pos hp]; simp [hp]
        · rw [if_neg hp]; simp
      · rw [if_neg hi]
        have hi0 : i = 0 := by omega
        subst hi0
        have h0 : pySlice text 0 0 = [] := by simp [pySlice]
        simp [h0, pyStrip_nil]

/-- Candidate row of the similarity query: a chunk id and its stored
embedding vector.  The remaining selected columns (content, section title,
chunk index, paper id, filename) are carried through the SQL unchanged and
play no role in scoring. -/
structure Cand where
  id : Nat
  vec : List ℚ
deriving DecidableEq

/-- SQL `SUM(a * b) FROM unnest(x, y)`: zip-wise dot product (PostgreSQL
pads the shorter array with NULLs and `SUM` ignores NULL products, so the
common prefix is summed). -/
def dotQ (x y : List ℚ) : ℚ := (List.zipWith (fun a b => a * b) x y).sum

/-- SQL `SUM(a * a) FROM unnest(x)`: sum of squares. -/
def sumSq (x : List ℚ) : ℚ := (x.map (fun a => a * a)).sum

/-- Similarity of one candidate, mirroring the SQL expression
`dot / NULLIF(sqrt(sumSq e) * sqrt(sumSq q), 0)`: `none` exactly when the
denominator is zero, i.e. when either vector is a zero vector.  To keep the
score in the rational field, the cosine value `c` is encoded by the
strictly monotone map `c ↦ c * |c|`, giving
`dot * |dot| / (sumSq q * sumSq v)`; this encoding preserves the
`ORDER BY similarity DESC` order exactly and maps cosine `1.0` to key `1`
(and only cosine `1.0` to key `1`). -/
def simOf (q v : List ℚ) : Option ℚ :=
  if sumSq q = 0 ∨ sumSq v = 0 then none
  else some (dotQ q v * |dotQ q v| / (sumSq q * sumSq v))

/-- The `similarities` CTE filtered by `WHERE similarity IS NOT NULL`: each
valid candidate paired with its score key, in table order. -/
def similarities (q : List ℚ) (cands : List Cand) : List (Cand × ℚ) :=
  cands.filterMap (fun c => (simOf q c.vec).map (fun s => (c, s)))

/-- Rows sorted by descending score key. -/
def SortedDesc (l : List (Cand × ℚ)) : Prop :=
  l.Sorted (fun a b => b.2 ≤ a.2)

/-- Relational semantics of `ORDER BY similarity DESC LIMIT :top_k`
(`_vector_search`): the output is the `k`-prefix of some permutation of the
valid rows that is sorted by descending score.  SQL fixes nothing more —
in particular the relative order of equal scores is unspecified. -/
def IsVectorSearchResult (q : List ℚ) (cands : List Cand) (k : Nat)
    (out : List (Cand × ℚ)) : Prop :=
  ∃ l : List (Cand × ℚ), l.Perm (similarities q cands) ∧ SortedDesc l ∧
    out = l.take k

/-- Stable descending insertion: a row is placed after all rows whose score
is at least as large, so earlier rows win ties. -/
def insertDesc (x : Cand × ℚ) : List (Cand × ℚ) → List (Cand × ℚ)
  | [] => [x]
  | y :: rest => if x.2 ≤ y.2 then y :: insertDesc x rest else x :: y :: rest

/-- Stable descending sort (left fold of stable insertions). -/
def stableSortDesc (l : List (Cand × ℚ)) : List (Cand × ℚ) :=
  l.foldl (fun acc x => insertDesc x acc) []

/-- Modelled from the spec's words, for comparison with the SQL semantics
(§4.5: "Ties are broken by stable input order (earlier candidates win
ties) to keep results deterministic"): the deterministic ranker that sorts
the valid candidates by descending score with stable tie-breaking and takes
the first `k`.  No such tiebreaker exists in the code's SQL. -/
def specStableRank (q : List ℚ) (cands : List Cand) (k : Nat) :
    List (Cand × ℚ) :=
  (stableSortDesc (similarities q cands)).take k

/-- C4: a candidate with a zero similarity denominator (zero query vector
or zero candidate vector) never appears in the result; and on the spec's
example — candidates `A = [1,0]`, `B = [0,0]`, query `[1,0]`, `k = 5` —
the result is exactly `[A]` (B is excluded), with A's score equal to `1`
both as the rational key and as the real cosine
`dot / (sqrt(sumSq A) * sqrt(sumSq q))`. -/
theorem c4_zero_denominator_excluded :
    (∀ (q : List ℚ) (cands : List Cand) (k : Nat) (out : List (Cand × ℚ)),
      IsVectorSearchResult q cands k out →
      ∀ p ∈ out, sumSq q ≠ 0 ∧ sumSq p.1.vec ≠ 0) ∧
    IsVectorSearchResult [1, 0] [⟨0, [1, 0]⟩, ⟨1, [0, 0]⟩] 5
      [(⟨0, [1, 0]⟩, 1)] ∧
    (∀ out, IsVectorSearchResult [1, 0] [⟨0, [1, 0]⟩, ⟨1, [0, 0]⟩] 5 out →
      out = [(⟨0, [1, 0]⟩, 1)]) ∧
    ((dotQ [1, 0] [1, 0] : ℚ) : ℝ) /
      (Real.sqrt ((sumSq ([1, 0] : List ℚ) : ℚ) : ℝ) *
        Real.sqrt ((sumSq ([1, 0] : List ℚ) : ℚ) : ℝ)) = 1 := by
  have hsims : similarities [1, 0] [⟨0, [1, 0]⟩, ⟨1, [0, 0]⟩] =
      [(⟨0, [1, 0]⟩, 1)] := by
    norm_num [similarities, simOf, dotQ, sumSq, List.filterMap_cons]
  refine ⟨?_, ?_, ?_, ?_⟩
  · intro q cands k out hres p hp
    obtain ⟨l, hperm, _, hout⟩ := hres
    have hpl : p ∈ l := List.mem_of_mem_take (hout ▸ hp)
    have hps : p ∈ similarities q cands := hperm.mem_iff.mp hpl
    unfold similarities at hps
    rw [List.mem_filterMap] at hps
    obtain ⟨c, _, hmap⟩ := hps
    cases hsim : simOf q c.vec with
    | none => rw [hsim] at hmap; simp at hmap
    | some s =>
        rw [hsim] at hmap
        simp at hmap
        subst hmap
        unfold simOf at hsim
        by_cases hz : sumSq q = 0 ∨ sumSq c.vec = 0
        · rw [if_pos hz] at hsim; exact absurd hsim (by simp)
        · push_neg at hz
          exact ⟨hz.1, hz.2⟩
  · refine ⟨[(⟨0, [1, 0]⟩, 1)], ?_, ?_, rfl⟩
    · rw [hsims]
    · simp [SortedDesc]
  · intro out hres
    obtain ⟨l, hperm, _, hout⟩ := hres
    rw [hsims, List.perm_singleton] at hperm
    rw [hout, hperm]
    rfl
  · have h1 : dotQ [1, 0] [1, 0] = (1 : ℚ) := by norm_num [dotQ]
    have h2 : sumSq ([1, 0] : List ℚ) = 1 := by norm_num [sumSq]
    rw [h1, h2]
    norm_num [Real.sqrt_one]

/-- Witness for C4's universally quantified exclusion at the example
input. -/
theorem c4_witness :
    sumSq ([1, 0] : List ℚ) ≠ 0 ∧ sumSq (Cand.vec ⟨0, [1, 0]⟩) ≠ 0 :=
  c4_zero_denominator_excluded.1 [1, 0] [⟨0, [1, 0]⟩, ⟨1, [0, 0]⟩] 5
    [(⟨0, [1, 0]⟩, 1)] c4_zero_denominator_excluded.2.1
    (⟨0, [1, 0]⟩, 1) (by simp)

/-- C5: FALSE as stated.  With candidates `A = [1,0]`, `B = [0,1]` and
query `[1,1]` both scores tie at key `1/2`; the SQL `ORDER BY similarity
DESC LIMIT 2` admits the output `[B, A]`, which differs from the
stable-input-order result `[A, B]` the spec promises, so tie-breaking by
input order (and hence determinism) is not guaranteed by the code. -/
theorem c5_stable_tie_counterexample :
    IsVectorSearchResult [1, 1] [⟨0, [1, 0]⟩, ⟨1, [0, 1]⟩] 2
      [(⟨1, [0, 1]⟩, 1/2), (⟨0, [1, 0]⟩, 1/2)] ∧
    [(⟨1, [0, 1]⟩, (1/2 : ℚ)), (⟨0, [1, 0]⟩, 1/2)] ≠
      specStableRank [1, 1] [⟨0, [1, 0]⟩, ⟨1, [0, 1]⟩] 2 := by
  have hsims : similarities [1, 1] [⟨0, [1, 0]⟩, ⟨1, [0, 1]⟩] =
      [(⟨0, [1, 0]⟩, 1/2), (⟨1, [0, 1]⟩, 1/2)] := by
    norm_num [similarities, simOf, dotQ, sumSq, List.filterMap_cons]
  constructor
  · refine ⟨[(⟨1, [0, 1]⟩, 1/2), (⟨0, [1, 0]⟩, 1/2)], ?_, ?_, rfl⟩
    · rw [hsims]
      exact List.Perm.swap _ _ _
    · simp [SortedDesc]
  · have hst : specStableRank [1, 1] [⟨0, [1, 0]⟩, ⟨1, [0, 1]⟩] 2 =
        [(⟨0, [1, 0]⟩, 1/2), (⟨1, [0, 1]⟩, 1/2)] := by
      norm_num [specStableRank, stableSortDesc, insertDesc, similarities,
        simOf, dotQ, sumSq, List.filterMap_cons]
    rw [hst]
    simp

/-- C5 (amended): the ranker output is sorted descending by score and has
length `min(k, number of valid candidates)` — all valid candidates are
returned when fewer than `k` exist — but the relative order of equal
scores is not fixed by the code (`ORDER BY similarity DESC` has no
tiebreaker), so the result need not follow stable input order and is not
uniquely determined. -/
theorem c5_amended_topk (q : List ℚ) (cands : List Cand) (k : Nat)
    (out : List (Cand × ℚ)) (h : IsVectorSearchResult q cands k out) :
    SortedDesc out ∧ out.length = min k (similarities q cands).length := by
  obtain ⟨l, hperm, hsort, rfl⟩ := h
  constructor
  · exact List.Pairwise.sublist (List.take_sublist k l) hsort
  · rw [List.length_take, hperm.length_eq]

/-- Witness for the amended C5 at the tie example. -/
theorem c5_amended_witness :
    SortedDesc [(⟨0, [1, 0]⟩, (1/2 : ℚ)), (⟨1, [0, 1]⟩, 1/2)] ∧
    ([(⟨0, [1, 0]⟩, (1/2 : ℚ)), (⟨1, [0, 1]⟩, 1/2)] :
        List (Cand × ℚ)).length =
      min 2 (similarities [1, 1] [⟨0, [1, 0]⟩, ⟨1, [0, 1]⟩]).length :=
by
  have hsims : similarities [1, 1] [⟨0, [1, 0]⟩, ⟨1, [0, 1]⟩] =
      [(⟨0, [1, 0]⟩, 1/2), (⟨1, [0, 1]⟩, 1/2)] := by
    norm_num [similarities, simOf, dotQ, sumSq, List.filterMap_cons]
  exact c5_amended_topk [1, 1] [⟨0, [1, 0]⟩, ⟨1, [0, 1]⟩] 2
    [(⟨0, [1, 0]⟩, 1/2), (⟨1, [0, 1]⟩, 1/2)]
    ⟨[(⟨0, [1, 0]⟩, 1/2), (⟨1, [0, 1]⟩, 1/2)],
      by rw [hsims], by simp [SortedDesc], rfl⟩

/-- Row of the `query_cache` table (`QueryCache` model): the columns the
Ask-Questions page reads and writes. -/
structure CacheRow where
  question : Str
  answer : Str
  paperId : Option Str
  chunkIds : List Str
  paperIds : List Str
deriving DecidableEq

/-- Database error surfaced by SQLAlchemy's `scalar_one_or_none`. -/
inductive DBError where
  | multipleResultsFound
deriving DecidableEq

/-- `get_cached_answer`: `SELECT ... WHERE question == q` followed by
`scalar_one_or_none()`, which returns `None` for no matching row, the row
when it is unique, and raises `MultipleResultsFound` when several rows
match. -/
def getCachedAnswer (st : List CacheRow) (q : Str) :
    Except DBError (Option CacheRow) :=
  match st.filter (fun r => r.question == q) with
  | [] => .ok none
  | [r] => .ok (some r)
  | _ :: _ :: _ => .error .multipleResultsFound

/-- `cache_answer`: always inserts a fresh row (new uuid4 id) and commits;
there is no upsert.  `paper_id` is the first collected paper id, `None`
when the list is empty. -/
def cacheAnswer (st : List CacheRow) (q ans : Str)
    (chunkIds paperIds : List Str) : List CacheRow :=
  st ++ [{ question := q, answer := ans, paperId := paperIds.head?,
           chunkIds := chunkIds, paperIds := paperIds }]

/-- Retrieved chunk as consumed by the Ask-Questions page. -/
structure RChunk where
  chunkId : Str
  content : Str
  sectionTitle : Option Str
  score : ℚ
  paperId : Option Str
  paperFilename : Option Str
deriving DecidableEq

/-- Answer produced by the generation collaborator. -/
structure GenAnswer where
  text : Str
  confidence : Str
deriving DecidableEq

/-- Result dictionary of `answer_question`; `chunks` carries the retrieved
chunks shown as sources. -/
structure AQResult where
  answer : Str
  cached : Bool
  confidence : Str
  chunks : List RChunk
deriving DecidableEq

/-- The fixed no-result answer string of `answer_question`. -/
def noInfoAnswer : Str :=
  ofStr "I couldn\x27t find relevant information in any of your uploaded papers to answer this question. Please make sure you have uploaded relevant documents."

/-- `answer_question` with the external collaborators abstracted:
`retrieve` models `RetrievalService.retrieve_chunks` (one ranking
invocation per call), `compress` models
`CompressionService.compress_context`, `gen` models
`GenerationService.answer_question` (one generation invocation).  Returns
the result, the new cache state, and the number of ranking and generation
invocations performed by this call; a raising cache lookup propagates as
`Except.error`.  (Python collects `paper_ids` through a `set`, whose
iteration order is unspecified; it is modelled by `dedup`, which the
claims do not depend on.) -/
def answerQuestion (retrieve : Str → List RChunk)
    (compress : List Str → Str → Str)
    (gen : Str → Str → List Str → GenAnswer)
    (st : List CacheRow) (q : Str) :
    Except DBError (AQResult × List CacheRow × Nat × Nat) :=
  match getCachedAnswer st q with
  | .error e => .error e
  | .ok (some r) =>
      .ok ({ answer := r.answer, cached := true, confidence := ofStr "high",
             chunks := [] }, st, 0, 0)
  | .ok none =>
      let retrieved := retrieve q
      if retrieved = [] then
        .ok ({ answer := noInfoAnswer, cached := false,
               confidence := ofStr "low", chunks := [] }, st, 1, 0)
      else
        let chunkContents := retrieved.map (fun c => c.content)
        let chunkIds := retrieved.map (fun c => c.chunkId)
        let paperIds := (retrieved.filterMap (fun c => c.paperId)).dedup
        let ans := gen (compress chunkContents q) q chunkIds
        .ok ({ answer := ans.text, cached := false,
               confidence := ans.confidence, chunks := retrieved },
          cacheAnswer st q ans.text chunkIds paperIds, 1, 1)

/-- Ask the identical question twice, threading the cache state, and
report the totals `(ranking invocations, generation invocations, second
call reported as cache hit)` — the observable of the spec's
cache-short-circuit property. -/
def askTwice (retrieve : Str → List RChunk)
    (compress : List Str → Str → Str)
    (gen : Str → Str → List Str → GenAnswer)
    (st : List CacheRow) (q : Str) : Except DBError (Nat × Nat × Bool) :=
  match answerQuestion retrieve compress gen st q with
  | .error e => .error e
  | .ok (_, st1, a1, b1) =>
      match answerQuestion retrieve compress gen st1 q with
      | .error e => .error e
      | .ok (r2, _, a2, b2) => .ok (a1 + a2, b1 + b2, r2.cached)

theorem getCached_after_insert (st : List CacheRow) (r : CacheRow) (q : Str)
    (hf : st.filter (fun x => x.question == q) = []) (hq : r.question = q) :
    getCachedAnswer (st ++ [r]) q = .ok (some r) := by
  have hfilter : (st ++ [r]).filter (fun x => x.question == q) = [r] := by
    rw [List.filter_append, hf]
    simp [List.filter, hq]
  unfold getCachedAnswer
  rw [hfilter]

theorem getCached_after_cacheAnswer (st : List CacheRow) (q ans : Str)
    (cids pids : List Str)
    (hf : st.filter (fun x => x.question == q) = []) :
    getCachedAnswer (cacheAnswer st q ans cids pids) q =
      .ok (some { question := q, answer := ans, paperId := pids.head?,
                  chunkIds := cids, paperIds := pids }) :=
  getCached_after_insert st _ q hf rfl

/-- C6: FALSE as stated.  With an empty corpus every retrieval returns no
chunks, `answer_question` returns the fixed no-information answer WITHOUT
caching it, and asking the identical question a second time runs the full
ranking path again: two ranking invocations, no generation, and the second
result is not a cache hit. -/
theorem c6_cache_short_circuit_counterexample :
    askTwice (fun _ => []) (fun _ _ => []) (fun _ _ _ => ⟨[], ofStr "low"⟩)
      [] (ofStr "q") = .ok (2, 0, false) ∧
    (Except.ok (2, 0, false) : Except DBError (Nat × Nat × Bool)) ≠
      .ok (1, 1, true) := by
  constructor
  · rfl
  · simp

/-- C6 (amended): provided the question string is not yet cached and its
retrieval finds at least one chunk, asking the identical question twice
performs exactly one ranking and one generation invocation in total and
the second call is reported as a cache hit (it returns the cached
answer). -/
theorem c6_amended_cache_short_circuit (retrieve : Str → List RChunk)
    (compress : List Str → Str → Str)
    (gen : Str → Str → List Str → GenAnswer) (st : List CacheRow) (q : Str)
    (hfresh : st.filter (fun r => r.question == q) = [])
    (hret : retrieve q ≠ []) :
    askTwice retrieve compress gen st q = .ok (1, 1, true) := by
  have h1 : getCachedAnswer st q = .ok none := by
    unfold getCachedAnswer
    rw [hfresh]
  have hcall1 : answerQuestion retrieve compress gen st q =
      .ok ({ answer := (gen (compress ((retrieve q).map (fun c => c.content)) q)
                 q ((retrieve q).map (fun c => c.chunkId))).text,
             cached := false,
             confidence := (gen (compress ((retrieve q).map (fun c => c.content)) q)
                 q ((retrieve q).map (fun c => c.chunkId))).confidence,
             chunks := retrieve q },
        cacheAnswer st q
          (gen (compress ((retrieve q).map (fun c => c.content)) q) q
            ((retrieve q).map (fun c => c.chunkId))).text
          ((retrieve q).map (fun c => c.chunkId))
          (((retrieve q).filterMap (fun c => c.paperId)).dedup), 1, 1) := by
    unfold answerQuestion
    rw [h1]
    dsimp only
    rw [if_neg hret]
  have hcall2 : answerQuestion retrieve compress gen
      (cacheAnswer st q
        (gen (compress ((retrieve q).map (fun c => c.content)) q) q
          ((retrieve q).map (fun c => c.chunkId))).text
        ((retrieve q).map (fun c => c.chunkId))
        (((retrieve q).filterMap (fun c => c.paperId)).dedup)) q =
      .ok ({ answer := (gen (compress ((retrieve q).map (fun c => c.content)) q) q
               ((retrieve q).map (fun c => c.chunkId))).text,
             cached := true, confidence := ofStr "high", chunks := [] },
        cacheAnswer st q
          (gen (compress ((retrieve q).map (fun c => c.content)) q) q
            ((retrieve q).map (fun c => c.chunkId))).text
          ((retrieve q).map (fun c => c.chunkId))
          (((retrieve q).filterMap (fun c => c.paperId)).dedup), 0, 0) := by
    unfold answerQuestion
    rw [getCached_after_cacheAnswer st q _ _ _ hfresh]
  unfold askTwice
  rw [hcall1]
  dsimp only
  rw [hcall2]

/-- Witness for the amended C6 at a concrete fresh question with one
retrieved chunk. -/
theorem c6_amended_witness :
    askTwice (fun _ => [⟨ofStr "c1", ofStr "body", none, 1, none, none⟩])
      (fun _ _ => ofStr "ctx") (fun _ _ _ => ⟨ofStr "ans", ofStr "high"⟩)
      [] (ofStr "what") = .ok (1, 1, true) :=
  c6_amended_cache_short_circuit
    (fun _ => [⟨ofStr "c1", ofStr "body", none, 1, none, none⟩])
    (fun _ _ => ofStr "ctx") (fun _ _ _ => ⟨ofStr "ans", ofStr "high"⟩)
    [] (ofStr "what") rfl (by simp)

/-- A duplicate cache row used in the C7 counterexample. -/
def dupRow : CacheRow :=
  { question := ofStr "q", answer := ofStr "a", paperId := none,
    chunkIds := [], paperIds := [] }

/-- C7: FALSE as stated.  With two cache rows for the same question,
`get_cached_answer`'s `scalar_one_or_none()` raises `MultipleResultsFound`
instead of tolerating the duplicates and returning one of them. -/
theorem c7_duplicate_rows_counterexample :
    getCachedAnswer [dupRow, dupRow] (ofStr "q") =
      .error .multipleResultsFound ∧
    (Except.error DBError.multipleResultsFound :
        Except DBError (Option CacheRow)) ≠ .ok (some dupRow) := by
  constructor
  · rfl
  · simp

/-- C7 (amended): whenever two or more cache rows match the question
string, the cache lookup raises `MultipleResultsFound` (propagated by
`scalar_one_or_none`) rather than returning any of the duplicate rows. -/
theorem c7_amended_duplicates_raise (st : List CacheRow) (q : Str)
    (h : 2 ≤ (st.filter (fun r => r.question == q)).length) :
    getCachedAnswer st q = .error .multipleResultsFound := by
  unfold getCachedAnswer
  cases hf : st.filter (fun r => r.question == q) with
  | nil => rw [hf] at h; simp at h
  | cons a t =>
      cases t with
      | nil => rw [hf] at h; simp at h
      | cons b t2 => rfl

/-- Witness for the amended C7 on a two-row duplicate state. -/
theorem c7_amended_witness :
    getCachedAnswer
      [{ question := ofStr "w", answer := ofStr "a1", paperId := none,
         chunkIds := [], paperIds := [] },
       { question := ofStr "w", answer := ofStr "a2", paperId := none,
         chunkIds := [], paperIds := [] }] (ofStr "w") =
      .error .multipleResultsFound :=
  c7_amended_duplicates_raise _ (ofStr "w") (by decide)

/-- Errors raised by `embed_query`: the empty-query `ValueError` and the
retries-exhausted `RuntimeError`. -/
inductive EmbedError where
  | valueError
  | runtimeError
deriving DecidableEq

/-- `EmbeddingService._clean_text`: collapse whitespace via
`" ".join(text.split())`, then truncate to 25000 characters. -/
def cleanText (t : Str) : Str :=
  let cleaned := joinSp (pySplitWs t)
  if 25000 < cleaned.length then cleaned.take 25000 else cleaned

/-- `EmbeddingService.embed_query`: an empty cleaned query raises
`ValueError` before any network attempt; otherwise up to three attempts of
the external embedding call (modelled by the attempt-indexed `api`),
returning the first success, and `RuntimeError` when all three fail. -/
def embedQuery (api : Nat → Str → Option (List ℚ)) (q : Str) :
    Except EmbedError (List ℚ) :=
  let cleaned := cleanText q
  if cleaned = [] then .error .valueError
  else
    match api 0 cleaned with
    | some v => .ok v
    | none =>
        match api 1 cleaned with
        | some v => .ok v
        | none =>
            match api 2 cleaned with
            | some v => .ok v
            | none => .error .runtimeError

/-- `RetrievalService.retrieve_chunks` as a relation: embed the query
(exceptions propagate to the caller), then any output admitted by the
vector-search semantics may be returned. -/
def IsRetrieveChunksOutcome (api : Nat → Str → Option (List ℚ))
    (cands : List Cand) (k : Nat) (q : Str)
    (res : Except EmbedError (List (Cand × ℚ))) : Prop :=
  match embedQuery api q with
  | .error e => res = .error e
  | .ok v => ∃ out, IsVectorSearchResult v cands k out ∧ res = .ok out

theorem splitWsAux_nil_of_all_ws :
    ∀ (s : Str), (∀ c ∈ s, isPyWs c = true) → splitWsAux s [] = [] := by
  intro s
  induction s with
  | nil => intro _; rfl
  | cons c t ih =>
      intro h
      have hc : isPyWs c = true := h c (by simp)
      simp only [splitWsAux, hc, if_true]
      exact ih (fun d hd => h d (by simp [hd]))

theorem pySplitWs_all_ws {q : Str} (h : ∀ c ∈ q, isPyWs c = true) :
    pySplitWs q = [] :=
  splitWsAux_nil_of_all_ws q h

/-- C10: for every query string that is empty or whitespace-only,
`embed_query` raises `ValueError` (no embedding is ever produced), and
`retrieve_chunks`, which embeds the query first, propagates that error:
no search result is returned for such a query. -/
theorem c10_empty_query_raises (api : Nat → Str → Option (List ℚ))
    (cands : List Cand) (k : Nat) (q : Str)
    (hws : ∀ c ∈ q, isPyWs c = true) :
    embedQuery api q = .error .valueError ∧
    ∀ res, IsRetrieveChunksOutcome api cands k q res →
      res = .error EmbedError.valueError := by
  have hclean : cleanText q = [] := by
    unfold cleanText
    rw [pySplitWs_all_ws hws]
    rfl
  have hembed : embedQuery api q = .error .valueError := by
    unfold embedQuery
    rw [hclean]
    rfl
  refine ⟨hembed, ?_⟩
  intro res hres
  unfold IsRetrieveChunksOutcome at hres
  rw [hembed] at hres
  exact hres

/-- Witness for C10 on a two-space query. -/
theorem c10_witness :
    embedQuery (fun _ _ => none) (ofStr "  ") = .error .valueError ∧
    ∀ res, IsRetrieveChunksOutcome (fun _ _ => none) [] 5 (ofStr "  ") res →
      res = .error EmbedError.valueError :=
  c10_empty_query_raises (fun _ _ => none) [] 5 (ofStr "  ") (by decide)
